import Mathlib

/-!
Verification of the feedback-analysis core of `src/app.py`.

The pipeline in the source is: `analyze_sentiment` (substring lexicon
classifier over the lowercased raw cell), `extract_keywords` (per-character
regex cleaning, whitespace split, stopword and length filtering),
`create_wordcloud` (joins the non-null column values with spaces and
re-extracts keywords), and the aggregation in `main`
(`Counter(all_keywords).most_common(20)` and the month/sentiment
cross-tabulation).

Python text values are modelled as `List Char` (one entry per Unicode code
point, like Python's `str`); a dataframe cell is a `Cell`, which is either a
missing value (`NaN`/`None`/`NaT`, detected by `pd.isna`), a string, or any
other non-missing object carried by its `str()` rendering.
-/

/-- A Python string, one list entry per code point. -/
abbrev PyStr := List Char

/-- A pandas cell: missing (`pd.isna` is true), a string, or any other
non-missing value represented by its `str()` form. -/
inductive Cell : Type where
  | null : Cell
  | str : PyStr → Cell
  | obj : PyStr → Cell
deriving DecidableEq

/-- `pd.isna` on a scalar cell: true exactly for missing values. -/
def pd_isna : Cell → Bool
  | Cell.null => true
  | _ => false

/-- Python's `text == ''`: true only for the empty string; comparing a
non-string object with `''` yields `False` (no exception). -/
def eqEmptyStr : Cell → Bool
  | Cell.str s => s.isEmpty
  | _ => false

/-- Python's `str(text)` on a cell.  The `null` case renders as `"nan"`
(pandas' form); every use in the source is guarded by `pd.isna` or
`dropna`, so that branch is never reached. -/
def pyStr : Cell → PyStr
  | Cell.null => 'n' :: 'a' :: 'n' :: []
  | Cell.str s => s
  | Cell.obj r => r

/-- The three sentiment labels `'긍정'`, `'부정'`, `'중립'` returned by
`analyze_sentiment`. -/
inductive Label : Type where
  | positive : Label
  | negative : Label
  | neutral : Label
deriving DecidableEq

/-- `needle.isPrefixOf hay || …` scan: Python's substring test
`needle in hay` for strings, checking every suffix of `hay`. -/
def hasSubstring (needle : PyStr) : PyStr → Bool
  | [] => needle.isPrefixOf []
  | c :: cs => needle.isPrefixOf (c :: cs) || hasSubstring needle cs

/-- The hard-coded positive lexicon of `analyze_sentiment` (src/app.py:37). -/
def positive_words : List PyStr :=
  ["좋다", "좋은", "만족", "훌륭", "최고", "감사", "추천", "훌륭한",
   "빠르다", "빠른", "편리", "편한", "친절", "도움", "해결", "완벽"].map String.toList

/-- The hard-coded negative lexicon of `analyze_sentiment` (src/app.py:41). -/
def negative_words : List PyStr :=
  ["나쁘다", "나쁜", "불만", "문제", "느리다", "느린", "불편", "어려움",
   "실망", "화나다", "짜증", "복잡", "오류", "오래", "지연", "불친절"].map String.toList

/-- `sum(1 for word in words if word in text)`: the number of lexicon terms
occurring as substrings of `text`; each term contributes at most once. -/
def countHits (words : List PyStr) (text : PyStr) : Nat :=
  (words.filter (fun w => hasSubstring w text)).length

/-- The scan-and-compare part of `analyze_sentiment`: lowercase the raw
text (`str(text).lower()`), count positive and negative substring hits and
decide by strict comparison.  `Char.toLower` models Python `lower()` (it
agrees on ASCII and is the identity on Hangul, the only scripts the
lexicons use). -/
def classifyText (pos neg : List PyStr) (raw : PyStr) : Label :=
  let text := raw.map Char.toLower
  let positive_count := countHits pos text
  let negative_count := countHits neg text
  if positive_count > negative_count then Label.positive
  else if negative_count > positive_count then Label.negative
  else Label.neutral

/-- `analyze_sentiment` with the two lexicons as parameters: the guard
`pd.isna(text) or text == ''` returns `'중립'` before any scan. -/
def analyzeSentimentWith (pos neg : List PyStr) (cell : Cell) : Label :=
  if pd_isna cell || eqEmptyStr cell then Label.neutral
  else classifyText pos neg (pyStr cell)

/-- `analyze_sentiment` (src/app.py:29-52) with its hard-coded lexicons. -/
def analyze_sentiment (cell : Cell) : Label :=
  analyzeSentimentWith positive_words negative_words cell

/-- A character kept by the regex `[^가-힣a-zA-Z0-9\s]` of
`extract_keywords`: Hangul syllable, ASCII letter, digit, or whitespace. -/
def isKeptChar (c : Char) : Bool :=
  (0xAC00 ≤ c.toNat && c.toNat ≤ 0xD7A3) || c.isAlpha || c.isDigit || c.isWhitespace

/-- One step of `re.sub(r'[^가-힣a-zA-Z0-9\s]', ' ', text)`: a character
that the class rejects is replaced by a single space. -/
def cleanChar (c : Char) : Char :=
  if isKeptChar c then c else ' '

/-- Accumulator-based whitespace splitter: `acc` holds the reversed current
word.  Models Python `str.split()` — splits on whitespace runs and drops
empty fragments. -/
def splitWSAux : PyStr → PyStr → List PyStr
  | [], acc => if acc.isEmpty then [] else [acc.reverse]
  | c :: cs, acc =>
    if c.isWhitespace then
      (if acc.isEmpty then [] else [acc.reverse]) ++ splitWSAux cs []
    else
      splitWSAux cs (c :: acc)

/-- Python `text.split()` (no separator argument). -/
def splitWS (t : PyStr) : List PyStr :=
  splitWSAux t []

/-- The stopword list of `extract_keywords` (src/app.py:65-66), including
its duplicate `"부터"` entry. -/
def stopwords : List PyStr :=
  ["그", "이", "저", "것", "들", "의", "가", "을", "를", "에", "와", "과", "로", "으로",
   "는", "은", "도", "만", "부터", "까지", "에서", "에게", "한테", "께", "서", "부터"].map
    String.toList

/-- The filter `len(word) > 1 and word not in stopwords`. -/
def isKeywordTok (w : PyStr) : Bool :=
  decide (1 < w.length) && !(stopwords.contains w)

/-- `extract_keywords` (src/app.py:55-70): empty/missing guard, regex
cleaning of `str(text)`, whitespace split, stopword/length filter.  The
`top_n` parameter is accepted (default 20) but never used, as in the
source. -/
def extract_keywords (text : Cell) (top_n : Nat := 20) : List PyStr :=
  if pd_isna text || eqEmptyStr text then []
  else (splitWS ((pyStr text).map cleanChar)).filter isKeywordTok

/-- The keys of `Counter(l)` in order: distinct values ordered by first
occurrence (Python dicts preserve first-insertion order). -/
def counterKeys : List PyStr → List PyStr
  | [] => []
  | x :: xs => x :: (counterKeys xs).filter (fun t => decide (t ≠ x))

/-- `Counter(l).items()`: first-occurrence-ordered distinct values paired
with their multiplicities. -/
def counterItems (l : List PyStr) : List (PyStr × Nat) :=
  (counterKeys l).map (fun t => (t, l.count t))

/-- Comparison used by `Counter.most_common`: keep `a` before `b` when
`a`'s count is at least `b`'s. -/
def countGE (a b : PyStr × Nat) : Bool :=
  decide (b.2 ≤ a.2)

/-- `Counter(l).most_common(n)`: `heapq.nlargest(n, items, key=count)`, a
stable descending sort of the items by count, truncated to `n`. -/
def most_common (l : List PyStr) (n : Nat) : List (PyStr × Nat) :=
  ((counterItems l).mergeSort countGE).take n

/-- The `all_keywords` accumulation of `main` (src/app.py:215-218):
keywords of every non-null cell of the selected column, concatenated in
record order. -/
def corpusKeywords (col : List Cell) : List PyStr :=
  (col.filter (fun c => !pd_isna c)).flatMap (fun c => extract_keywords c 20)

/-- `top_keywords` of `main` (src/app.py:220-221):
`Counter(all_keywords).most_common(20)`. -/
def top_keywords (col : List Cell) : List (PyStr × Nat) :=
  most_common (corpusKeywords col) 20

/-- `' '.join(ts)`. -/
def joinSep : List PyStr → PyStr
  | [] => []
  | [t] => t
  | t :: u :: ts => t ++ ' ' :: joinSep (u :: ts)

/-- `' '.join(text_data.dropna().astype(str))` of `create_wordcloud`
(src/app.py:75). -/
def joinTexts (col : List Cell) : PyStr :=
  joinSep ((col.filter (fun c => !pd_isna c)).map pyStr)

/-- The token multiset used by `create_wordcloud` (src/app.py:75-76):
keywords extracted from the joined column text. -/
def wordcloud_words (col : List Cell) : List PyStr :=
  extract_keywords (Cell.str (joinTexts col)) 100

/-- A calendar month as produced by `dt.to_period('M')`: (year, month). -/
abbrev Month := Int × Nat

/-- One cell of `df.groupby(['month', 'sentiment']).size().unstack(fill_value=0)`
(src/app.py:256-257): the number of records whose parsed timestamp falls in
month `m` and whose text classifies as `lab`.  Records whose timestamp
failed to parse (`errors='coerce'` gives `NaT`, modelled as `none`) fall in
no bucket; absent (month, label) combinations read as `0`. -/
def monthlySentimentCount (records : List (Option Month × Cell)) (m : Month)
    (lab : Label) : Nat :=
  (records.filter (fun r => decide (r.1 = some m ∧ analyze_sentiment r.2 = lab))).length

/-! ## Helper lemmas -/

lemma analyze_sentiment_str_of_ne_nil (t : PyStr) (h : t ≠ []) :
    analyze_sentiment (Cell.str t) = classifyText positive_words negative_words t := by
  cases t with
  | nil => exact absurd rfl h
  | cons c cs => rfl

lemma classifyText_pos {pos neg : List PyStr} {raw : PyStr}
    (h : countHits neg (raw.map Char.toLower) < countHits pos (raw.map Char.toLower)) :
    classifyText pos neg raw = Label.positive := by
  simp only [classifyText]
  rw [if_pos h]

lemma classifyText_neg {pos neg : List PyStr} {raw : PyStr}
    (h : countHits pos (raw.map Char.toLower) < countHits neg (raw.map Char.toLower)) :
    classifyText pos neg raw = Label.negative := by
  simp only [classifyText]
  rw [if_neg (by omega), if_pos h]

lemma classifyText_neutral {pos neg : List PyStr} {raw : PyStr}
    (h : countHits pos (raw.map Char.toLower) = countHits neg (raw.map Char.toLower)) :
    classifyText pos neg raw = Label.neutral := by
  simp only [classifyText]
  rw [if_neg (by omega), if_neg (by omega)]

/-! ## Claims -/

/-- C1: for every non-null, non-empty text, `analyze_sentiment` returns
`'긍정'` when more positive than negative lexicon terms occur as substrings
of the lowercased raw text, `'부정'` for the converse, `'중립'` on a tie;
each lexicon term contributes at most one hit however often it occurs. -/
theorem analyze_sentiment_decision (t : PyStr) (h : t ≠ []) :
    (countHits negative_words (t.map Char.toLower) <
        countHits positive_words (t.map Char.toLower) →
      analyze_sentiment (Cell.str t) = Label.positive) ∧
    (countHits positive_words (t.map Char.toLower) <
        countHits negative_words (t.map Char.toLower) →
      analyze_sentiment (Cell.str t) = Label.negative) ∧
    (countHits positive_words (t.map Char.toLower) =
        countHits negative_words (t.map Char.toLower) →
      analyze_sentiment (Cell.str t) = Label.neutral) ∧
    (∀ (ws : List PyStr) (x : PyStr), countHits ws x ≤ ws.length) := by
  rw [analyze_sentiment_str_of_ne_nil t h]
  exact ⟨fun hlt => classifyText_pos hlt, fun hlt => classifyText_neg hlt,
    fun heq => classifyText_neutral heq, fun ws x => List.length_filter_le _ _⟩

/-- C1 witness: the text `"좋은"` contains the positive term `"좋은"` and no
negative term, so it classifies as `'긍정'`. -/
theorem analyze_sentiment_decision_witness :
    ('좋' :: '은' :: []) ≠ ([] : PyStr) ∧
      analyze_sentiment (Cell.str ('좋' :: '은' :: [])) = Label.positive :=
  ⟨by decide, (analyze_sentiment_decision _ (by decide)).1 (by decide)⟩

/-- C2: a missing cell or the empty string classifies as `'중립'` at the
guard, for any lexicon whatsoever — hence without any substring scan and
without an exception. -/
theorem analyze_sentiment_null_empty (pos neg : List PyStr) :
    analyzeSentimentWith pos neg Cell.null = Label.neutral ∧
    analyzeSentimentWith pos neg (Cell.str []) = Label.neutral :=
  ⟨rfl, rfl⟩

/-- C8: `extract_keywords` never consults its `top_n` parameter; the token
sequence is identical for any two values. -/
theorem extract_keywords_top_n_irrelevant (c : Cell) (n₁ n₂ : Nat) :
    extract_keywords c n₁ = extract_keywords c n₂ :=
  rfl

/-- C4 counterexample: `extract_keywords` does not lowercase — the input
`"AB"` comes back as the token `"AB"`, which is not a lowercase string. -/
theorem extract_keywords_not_lowercased :
    extract_keywords (Cell.str ('A' :: 'B' :: [])) 20 = [('A' :: 'B' :: [])] ∧
    ('A' :: 'B' :: []).map Char.toLower ≠ ('A' :: 'B' :: []) := by
  decide

/-- C10: `analyze_sentiment` is total over arbitrary cell values: every
missing value maps to `'중립'`, and every non-missing value is classified
on its `str()` form (for the empty string the guard short-circuits, but the
scan of the empty string yields the same `'중립'`), so one of the three
labels is always returned and no exception is possible. -/
theorem analyze_sentiment_total (c : Cell) :
    (pd_isna c = true → analyze_sentiment c = Label.neutral) ∧
    (pd_isna c = false →
      analyze_sentiment c = classifyText positive_words negative_words (pyStr c)) ∧
    (analyze_sentiment c = Label.positive ∨ analyze_sentiment c = Label.negative ∨
      analyze_sentiment c = Label.neutral) := by
  refine ⟨?_, ?_, ?_⟩
  · intro h
    cases c with
    | null => rfl
    | str s => cases h
    | obj r => cases h
  · intro h
    cases c with
    | null => cases h
    | str s =>
      cases s with
      | nil =>
        show Label.neutral = classifyText positive_words negative_words []
        decide
      | cons a as => rfl
    | obj r => rfl
  · cases hl : analyze_sentiment c with
    | positive => exact Or.inl rfl
    | negative => exact Or.inr (Or.inl rfl)
    | neutral => exact Or.inr (Or.inr rfl)

/-- C10 witness: a missing value maps to `'중립'`; a non-string object
(here rendered `"5"`) is classified on its string form. -/
theorem analyze_sentiment_total_witness :
    analyze_sentiment Cell.null = Label.neutral ∧
    analyze_sentiment (Cell.obj ('5' :: [])) =
      classifyText positive_words negative_words ('5' :: []) :=
  ⟨(analyze_sentiment_total Cell.null).1 rfl,
   (analyze_sentiment_total (Cell.obj ('5' :: []))).2.1 rfl⟩

/-- C5: every token produced by `extract_keywords` is non-empty, has at
least two characters, and is not a stopword. -/
theorem extract_keywords_tokens_valid (c : Cell) (n : Nat) (tok : PyStr)
    (h : tok ∈ extract_keywords c n) :
    tok ≠ [] ∧ 2 ≤ tok.length ∧ tok ∉ stopwords := by
  unfold extract_keywords at h
  split at h
  · exact absurd h (List.not_mem_nil _)
  · rw [List.mem_filter] at h
    obtain ⟨-, hp⟩ := h
    rw [isKeywordTok, Bool.and_eq_true, decide_eq_true_eq, Bool.not_eq_true'] at hp
    obtain ⟨hlen, hcon⟩ := hp
    refine ⟨?_, hlen, ?_⟩
    · intro hnil
      rw [hnil] at hlen
      exact absurd hlen (by decide)
    · intro hmem
      have : stopwords.contains tok = true :=
        List.contains_iff_exists_mem_beq.mpr ⟨tok, hmem, by simp⟩
      rw [this] at hcon
      cases hcon

/-- C5 witness: the token `"ab"` extracted from `"ab cd"` is non-empty, of
length at least two, and not a stopword. -/
theorem extract_keywords_tokens_valid_witness :
    ('a' :: 'b' :: []) ≠ ([] : PyStr) ∧ 2 ≤ ('a' :: 'b' :: []).length ∧
      ('a' :: 'b' :: []) ∉ stopwords :=
  extract_keywords_tokens_valid (Cell.str ('a' :: 'b' :: ' ' :: 'c' :: 'd' :: [])) 20 _
    (by decide)

lemma splitWSAux_chunks (l : PyStr) :
    ∀ (acc : PyStr), (∀ c ∈ acc, c.isWhitespace = false) →
      ∀ tok ∈ splitWSAux l acc,
        (∀ c ∈ tok, c.isWhitespace = false) ∧
          ∃ u v, acc.reverse ++ l = u ++ (tok ++ v) := by
  induction l with
  | nil =>
    intro acc hacc tok htok
    rw [splitWSAux] at htok
    split at htok
    · exact absurd htok (List.not_mem_nil _)
    · rw [List.mem_singleton] at htok
      subst htok
      exact ⟨fun c hc => hacc c (List.mem_reverse.mp hc), [], [], by simp⟩
  | cons c cs ih =>
    intro acc hacc tok htok
    rw [splitWSAux] at htok
    split at htok
    · rw [List.mem_append] at htok
      rcases htok with h1 | h2
      · split at h1
        · exact absurd h1 (List.not_mem_nil _)
        · rw [List.mem_singleton] at h1
          subst h1
          exact ⟨fun d hd => hacc d (List.mem_reverse.mp hd), [], c :: cs, by simp⟩
      · obtain ⟨hnws, u, v, huv⟩ := ih [] (by simp) tok h2
        simp only [List.reverse_nil, List.nil_append] at huv
        refine ⟨hnws, acc.reverse ++ c :: u, v, ?_⟩
        rw [huv]
        simp [List.append_assoc]
    · have hacc' : ∀ d ∈ c :: acc, d.isWhitespace = false := by
        intro d hd
        rcases List.mem_cons.mp hd with rfl | hdm
        · simp only [Bool.not_eq_true] at *
          assumption
        · exact hacc d hdm
      obtain ⟨hnws, u, v, huv⟩ := ih (c :: acc) hacc' tok htok
      refine ⟨hnws, u, v, ?_⟩
      rw [List.reverse_cons] at huv
      rw [← huv]
      simp [List.append_assoc]

lemma map_cleanChar_eq_of_no_ws (t : PyStr) :
    ∀ (tok : PyStr), t.map cleanChar = tok →
      (∀ c ∈ tok, c.isWhitespace = false) → t = tok := by
  induction t with
  | nil =>
    intro tok h _
    exact h
  | cons a as ih =>
    intro tok h hn
    cases tok with
    | nil => cases h
    | cons b bs =>
      rw [List.map_cons, List.cons.injEq] at h
      obtain ⟨hab, htail⟩ := h
      have hb : b.isWhitespace = false := hn b (List.mem_cons_self _ _)
      have hb' : a = b := by
        by_cases hk : isKeptChar a = true
        · rw [cleanChar, if_pos hk] at hab
          exact hab
        · rw [cleanChar, if_neg hk] at hab
          rw [← hab] at hb
          cases hb
      rw [hb', ih bs htail (fun d hd => hn d (List.mem_cons_of_mem _ hd))]

lemma exists_substring_decomposition (t tok u v : PyStr)
    (h : t.map cleanChar = u ++ (tok ++ v))
    (hn : ∀ c ∈ tok, c.isWhitespace = false) :
    ∃ u₀ v₀, t = u₀ ++ (tok ++ v₀) := by
  rw [List.map_eq_append_iff] at h
  obtain ⟨l₁, l₂, rfl, h₁, h₂⟩ := h
  rw [List.map_eq_append_iff] at h₂
  obtain ⟨m₁, m₂, rfl, hm₁, hm₂⟩ := h₂
  exact ⟨l₁, m₂, by rw [map_cleanChar_eq_of_no_ws m₁ tok hm₁ hn]⟩

/-- C4 amended: for every non-empty text, `extract_keywords` replaces each
character that is not a Hangul syllable, Latin letter, digit, or whitespace
by a single space, splits on whitespace dropping empty fragments, and
filters; it does NOT lowercase — every returned token is a contiguous
substring of the raw text, case intact. -/
theorem extract_keywords_no_lowercasing (t : PyStr) (h : t ≠ []) :
    extract_keywords (Cell.str t) 20 =
      (splitWS (t.map cleanChar)).filter isKeywordTok ∧
    ∀ tok ∈ extract_keywords (Cell.str t) 20, ∃ u v, t = u ++ (tok ++ v) := by
  have he : extract_keywords (Cell.str t) 20 =
      (splitWS (t.map cleanChar)).filter isKeywordTok := by
    cases t with
    | nil => exact absurd rfl h
    | cons a as => rfl
  refine ⟨he, fun tok htok => ?_⟩
  rw [he, List.mem_filter] at htok
  obtain ⟨hmem, -⟩ := htok
  obtain ⟨hnws, u, v, huv⟩ := splitWSAux_chunks (t.map cleanChar) [] (by simp) tok hmem
  simp only [List.reverse_nil, List.nil_append] at huv
  exact exists_substring_decomposition t tok u v huv hnws

/-- C4 witness: on the text `"AB"` the amended normalization equation holds
(and indeed returns the non-lowercased token `"AB"`). -/
theorem extract_keywords_no_lowercasing_witness :
    extract_keywords (Cell.str ('A' :: 'B' :: [])) 20 =
      (splitWS (('A' :: 'B' :: []).map cleanChar)).filter isKeywordTok :=
  (extract_keywords_no_lowercasing _ (by decide)).1

lemma mem_counterKeys {t : PyStr} : ∀ {l : List PyStr}, t ∈ counterKeys l ↔ t ∈ l := by
  intro l
  induction l with
  | nil => simp [counterKeys]
  | cons x xs ih =>
    rw [counterKeys]
    simp only [List.mem_cons, List.mem_filter, decide_eq_true_eq]
    constructor
    · rintro (rfl | ⟨hm, _⟩)
      · exact Or.inl rfl
      · exact Or.inr (ih.mp hm)
    · rintro (rfl | hm)
      · exact Or.inl rfl
      · by_cases he : t = x
        · exact Or.inl he
        · exact Or.inr ⟨ih.mpr hm, he⟩

lemma nodup_counterKeys (l : List PyStr) : (counterKeys l).Nodup := by
  induction l with
  | nil => exact List.nodup_nil
  | cons x xs ih =>
    rw [counterKeys, List.nodup_cons]
    refine ⟨?_, ih.filter _⟩
    intro hx
    rw [List.mem_filter, decide_eq_true_eq] at hx
    exact hx.2 rfl

lemma sum_map_split_at_mem (f : PyStr → Nat) (x : PyStr) :
    ∀ (ks : List PyStr), ks.Nodup → x ∈ ks →
      (ks.map f).sum =
        f x + ((ks.filter (fun t => decide (t ≠ x))).map f).sum := by
  intro ks
  induction ks with
  | nil =>
    intro _ h
    cases h
  | cons y ys ih =>
    intro hnd hx
    rcases List.mem_cons.mp hx with rfl | hx'
    · have hxy : x ∉ ys := (List.nodup_cons.mp hnd).1
      have hfil : ys.filter (fun t => decide (t ≠ x)) = ys :=
        List.filter_eq_self.mpr
          (fun a ha => decide_eq_true (fun he => hxy (he ▸ ha)))
      have hcond : ¬((fun t => decide (t ≠ x)) x = true) := by simp
      rw [List.filter_cons, if_neg hcond, hfil, List.map_cons, List.sum_cons]
    · have hy : y ≠ x := fun he => (List.nodup_cons.mp hnd).1 (he ▸ hx')
      have hrec := ih (List.nodup_cons.mp hnd).2 hx'
      have hcond : (fun t => decide (t ≠ x)) y = true := decide_eq_true hy
      rw [List.filter_cons, if_pos hcond, List.map_cons, List.sum_cons, List.map_cons,
        List.sum_cons, hrec]
      omega

lemma sum_counts_counterKeys : ∀ l : List PyStr,
    ((counterKeys l).map (fun t => l.count t)).sum = l.length := by
  intro l
  induction l with
  | nil => rfl
  | cons x xs ih =>
    rw [counterKeys, List.map_cons, List.sum_cons]
    have hmapcong :
        ((counterKeys xs).filter (fun t => decide (t ≠ x))).map
            (fun t => (x :: xs).count t) =
          ((counterKeys xs).filter (fun t => decide (t ≠ x))).map
            (fun t => xs.count t) := by
      refine List.map_congr_left (fun a ha => ?_)
      rw [List.mem_filter, decide_eq_true_eq] at ha
      exact List.count_cons_of_ne ha.2 xs
    rw [hmapcong, List.count_cons_self, List.length_cons]
    by_cases hx : x ∈ xs
    · have hsplit : ((counterKeys xs).map (fun t => xs.count t)).sum =
          xs.count x +
            (((counterKeys xs).filter (fun t => decide (t ≠ x))).map
              (fun t => xs.count t)).sum :=
        sum_map_split_at_mem (fun t => xs.count t) x (counterKeys xs)
          (nodup_counterKeys xs) (mem_counterKeys.mpr hx)
      omega
    · have hfil : (counterKeys xs).filter (fun t => decide (t ≠ x)) = counterKeys xs :=
        List.filter_eq_self.mpr
          (fun a ha => decide_eq_true (fun he => hx (he ▸ mem_counterKeys.mp ha)))
      have hcx : xs.count x = 0 := List.count_eq_zero.mpr hx
      rw [hfil, ih, hcx]
      omega

lemma corpusKeywords_cons (c : Cell) (cs : List Cell) :
    corpusKeywords (c :: cs) = extract_keywords c 20 ++ corpusKeywords cs := by
  cases c with
  | null => rfl
  | str s => rfl
  | obj r => rfl

lemma length_corpusKeywords (col : List Cell) :
    (corpusKeywords col).length =
      (col.map (fun c => (extract_keywords c 20).length)).sum := by
  induction col with
  | nil => rfl
  | cons c cs ih =>
    rw [corpusKeywords_cons, List.length_append, ih, List.map_cons, List.sum_cons]

/-- C6: the counts of the keyword frequency table `Counter(all_keywords)`
sum to the total number of keyword tokens extracted across all records of
the corpus (null records contribute zero tokens). -/
theorem freq_table_counts_total (col : List Cell) :
    ((counterItems (corpusKeywords col)).map Prod.snd).sum =
      (col.map (fun c => (extract_keywords c 20).length)).sum := by
  rw [← length_corpusKeywords]
  rw [counterItems, List.map_map]
  exact sum_counts_counterKeys (corpusKeywords col)

lemma monthlySentimentCount_cons (r : Option Month × Cell)
    (rs : List (Option Month × Cell)) (m : Month) (lab : Label) :
    monthlySentimentCount (r :: rs) m lab =
      (if r.1 = some m ∧ analyze_sentiment r.2 = lab then 1 else 0) +
        monthlySentimentCount rs m lab := by
  rw [monthlySentimentCount, monthlySentimentCount, List.filter_cons]
  by_cases h : r.1 = some m ∧ analyze_sentiment r.2 = lab
  · rw [if_pos (decide_eq_true h), if_pos h, List.length_cons]
    omega
  · rw [if_neg (by simpa using h), if_neg h]
    omega

/-- C7: in the month/sentiment cross-tabulation, the counts of the three
labels in any month bucket sum to the number of records whose (valid)
timestamp falls in that month, and a record whose timestamp failed to
parse (`NaT`, modelled `none`) is silently excluded from every bucket.
Absent (month, label) combinations read as `0` since the count is total. -/
theorem monthly_bucket_sum (records : List (Option Month × Cell)) (m : Month) :
    (monthlySentimentCount records m Label.positive +
        monthlySentimentCount records m Label.negative +
        monthlySentimentCount records m Label.neutral =
      (records.filter (fun r => decide (r.1 = some m))).length) ∧
    (∀ (c : Cell) (lab : Label),
      monthlySentimentCount ((none, c) :: records) m lab =
        monthlySentimentCount records m lab) := by
  constructor
  · induction records with
    | nil => rfl
    | cons r rs ih =>
      rw [monthlySentimentCount_cons, monthlySentimentCount_cons,
        monthlySentimentCount_cons, List.filter_cons]
      by_cases hm : r.1 = some m
      · rcases hsent : analyze_sentiment r.2 with _ | _ | _ <;>
          simp [hm, hsent] <;> omega
      · simp [hm]
        simpa using ih
  · intro c lab
    rw [monthlySentimentCount_cons]
    simp

/-- The unguarded body of `extract_keywords` on a plain string. -/
def tokensOf (t : PyStr) : List PyStr :=
  (splitWS (t.map cleanChar)).filter isKeywordTok

lemma extract_keywords_eq_tokensOf (c : Cell) (h : pd_isna c = false) (n : Nat) :
    extract_keywords c n = tokensOf (pyStr c) := by
  cases c with
  | null => cases h
  | str s =>
    cases s with
    | nil => rfl
    | cons a as => rfl
  | obj r => rfl

lemma splitWSAux_append_ws {c : Char} (hc : c.isWhitespace = true) :
    ∀ (u v acc : PyStr), splitWSAux (u ++ c :: v) acc = splitWSAux u acc ++ splitWSAux v [] := by
  intro u
  induction u with
  | nil =>
    intro v acc
    simp [splitWSAux, hc]
  | cons a as ih =>
    intro v acc
    show splitWSAux (a :: (as ++ c :: v)) acc = splitWSAux (a :: as) acc ++ splitWSAux v []
    rw [splitWSAux, splitWSAux]
    by_cases ha : a.isWhitespace = true
    · rw [if_pos ha, if_pos ha, ih, List.append_assoc]
    · rw [if_neg ha, if_neg ha, ih]

lemma tokensOf_joinSep : ∀ ts : List PyStr, tokensOf (joinSep ts) = ts.flatMap tokensOf := by
  intro ts
  induction ts with
  | nil => rfl
  | cons t us ih =>
    cases us with
    | nil => simp [joinSep]
    | cons u vs =>
      show tokensOf (t ++ ' ' :: joinSep (u :: vs)) = _
      rw [tokensOf, List.map_append, List.map_cons]
      have hsp : cleanChar ' ' = ' ' := rfl
      rw [hsp, splitWS, splitWSAux_append_ws (by decide), List.filter_append]
      rw [List.flatMap_cons]
      show tokensOf t ++ tokensOf (joinSep (u :: vs)) = tokensOf t ++ (u :: vs).flatMap tokensOf
      rw [ih]

lemma corpusKeywords_eq_flatMap_tokensOf (col : List Cell) :
    corpusKeywords col =
      ((col.filter (fun c => !pd_isna c)).map pyStr).flatMap tokensOf := by
  rw [corpusKeywords, List.flatMap_def, List.flatMap_def, List.map_map]
  refine congrArg List.flatten (List.map_congr_left (fun c hc => ?_))
  rw [List.mem_filter, Bool.not_eq_eq_eq_not, Bool.not_true] at hc
  exact extract_keywords_eq_tokensOf c hc.2 20

/-- C9: the word-cloud computation — joining every non-null record text of
the column with single spaces and extracting keywords from the joined
string — yields exactly the same term multiset as extracting keywords
record by record and concatenating (in fact the very same token list). -/
theorem wordcloud_matches_per_record (col : List Cell) :
    Multiset.ofList (wordcloud_words col) = Multiset.ofList (corpusKeywords col) := by
  refine congrArg Multiset.ofList ?_
  rw [wordcloud_words, joinTexts,
    extract_keywords_eq_tokensOf (Cell.str _) rfl 100, corpusKeywords_eq_flatMap_tokensOf]
  exact tokensOf_joinSep _

/-- Index of the first occurrence of `t` in `l` (length of `l` when absent). -/
def firstIdx : List PyStr → PyStr → Nat
  | [], _ => 0
  | x :: xs, t => if x = t then 0 else firstIdx xs t + 1

lemma firstIdx_cons_self (x : PyStr) (xs : List PyStr) : firstIdx (x :: xs) x = 0 := by
  simp [firstIdx]

lemma firstIdx_cons_ne (x t : PyStr) (xs : List PyStr) (h : x ≠ t) :
    firstIdx (x :: xs) t = firstIdx xs t + 1 := by
  simp [firstIdx, h]

lemma counterKeys_pairwise_firstIdx (l : List PyStr) :
    (counterKeys l).Pairwise (fun t u => firstIdx l t < firstIdx l u) := by
  induction l with
  | nil => exact List.Pairwise.nil
  | cons x xs ih =>
    rw [counterKeys, List.pairwise_cons]
    constructor
    · intro u hu
      rw [List.mem_filter, decide_eq_true_eq] at hu
      rw [firstIdx_cons_self, firstIdx_cons_ne x u xs (fun he => hu.2 he.symm)]
      omega
    · refine List.Pairwise.imp_of_mem ?_ (ih.filter (fun t => decide (t ≠ x)))
      intro a b ha hb hab
      rw [List.mem_filter, decide_eq_true_eq] at ha hb
      rw [firstIdx_cons_ne x a xs (fun he => ha.2 he.symm),
        firstIdx_cons_ne x b xs (fun he => hb.2 he.symm)]
      omega

lemma nodup_counterItems (l : List PyStr) : (counterItems l).Nodup := by
  rw [counterItems]
  exact (nodup_counterKeys l).map_on (fun x _ y _ h => congrArg Prod.fst h)

lemma sublist_pair_total {α : Type} {a b : α} :
    ∀ {l : List α}, a ∈ l → b ∈ l → a ≠ b →
      List.Sublist [a, b] l ∨ List.Sublist [b, a] l := by
  intro l
  induction l with
  | nil =>
    intro ha
    cases ha
  | cons x xs ih =>
    intro ha hb hne
    rcases List.mem_cons.mp ha with rfl | ha'
    · have hb' : b ∈ xs := by
        rcases List.mem_cons.mp hb with he | h
        · exact absurd he.symm hne
        · exact h
      exact Or.inl ((List.singleton_sublist.mpr hb').cons₂ a)
    · rcases List.mem_cons.mp hb with rfl | hb'
      · exact Or.inr ((List.singleton_sublist.mpr ha').cons₂ b)
      · rcases ih ha' hb' hne with h | h
        · exact Or.inl (h.cons x)
        · exact Or.inr (h.cons x)

lemma sublist_pair_antisymm {α : Type} :
    ∀ {l : List α}, l.Nodup → ∀ {a b : α},
      List.Sublist [a, b] l → List.Sublist [b, a] l → a = b := by
  intro l
  induction l with
  | nil =>
    intro _ a b h
    rw [List.sublist_nil] at h
    cases h
  | cons x xs ih =>
    intro hnd a b hab hba
    have hx : x ∉ xs := (List.nodup_cons.mp hnd).1
    cases hab with
    | cons _ h1 =>
      cases hba with
      | cons _ h2 => exact ih (List.nodup_cons.mp hnd).2 h1 h2
      | cons₂ _ h2 => exact absurd (h1.subset (by simp)) hx
    | cons₂ _ h1 =>
      cases hba with
      | cons _ h2 => exact absurd (h2.subset (by simp)) hx
      | cons₂ _ h2 => rfl

lemma most_common_ranked (l : List PyStr) (n : Nat) :
    (most_common l n).length ≤ n ∧
    (most_common l n).Pairwise
      (fun a b => b.2 < a.2 ∨ (a.2 = b.2 ∧ firstIdx l a.1 < firstIdx l b.1)) ∧
    ∀ p ∈ most_common l n, p.2 = l.count p.1 := by
  have htrans : ∀ (a b c : PyStr × Nat), countGE a b → countGE b c → countGE a c := by
    intro a b c hab hbc
    simp only [countGE, decide_eq_true_eq] at hab hbc ⊢
    omega
  have htotal : ∀ (a b : PyStr × Nat), countGE a b || countGE b a := by
    intro a b
    rcases Nat.le_total b.2 a.2 with h | h <;> simp [countGE, h]
  have hnodup : ((counterItems l).mergeSort countGE).Nodup :=
    (List.mergeSort_perm (counterItems l) countGE).nodup_iff.mpr (nodup_counterItems l)
  have hidx : (counterItems l).Pairwise (fun p q => firstIdx l p.1 < firstIdx l q.1) := by
    rw [counterItems, List.pairwise_map]
    exact counterKeys_pairwise_firstIdx l
  have hkey : ((counterItems l).mergeSort countGE).Pairwise
      (fun a b => b.2 < a.2 ∨ (a.2 = b.2 ∧ firstIdx l a.1 < firstIdx l b.1)) := by
    rw [List.pairwise_iff_forall_sublist]
    intro a b hab
    have hle : countGE a b = true :=
      List.pairwise_iff_forall_sublist.mp
        (List.sorted_mergeSort htrans htotal (counterItems l)) hab
    rw [countGE, decide_eq_true_eq] at hle
    have hne : a ≠ b := List.pairwise_iff_forall_sublist.mp hnodup hab
    rcases Nat.lt_or_ge b.2 a.2 with hlt | hge
    · exact Or.inl hlt
    · have heq : a.2 = b.2 := Nat.le_antisymm hge hle
      refine Or.inr ⟨heq, ?_⟩
      have hamem : a ∈ counterItems l :=
        (List.mergeSort_perm (counterItems l) countGE).subset (hab.subset (by simp))
      have hbmem : b ∈ counterItems l :=
        (List.mergeSort_perm (counterItems l) countGE).subset (hab.subset (by simp))
      rcases sublist_pair_total hamem hbmem hne with h1 | h2
      · exact List.pairwise_iff_forall_sublist.mp hidx h1
      · have hba : List.Sublist [b, a] ((counterItems l).mergeSort countGE) :=
          List.pair_sublist_mergeSort htrans htotal
            (by rw [countGE, decide_eq_true_eq]; omega) h2
        exact absurd (sublist_pair_antisymm hnodup hab hba) hne
  refine ⟨?_, ?_, ?_⟩
  · rw [most_common, List.length_take]
    exact Nat.min_le_left _ _
  · rw [most_common]
    exact hkey.sublist (List.take_sublist n _)
  · intro p hp
    rw [most_common] at hp
    have hp' : p ∈ counterItems l :=
      (List.mergeSort_perm (counterItems l) countGE).subset
        ((List.take_sublist n _).subset hp)
    rw [counterItems] at hp'
    obtain ⟨t, _, rfl⟩ := List.mem_map.mp hp'
    rfl

/-- C3: `Counter(all_keywords).most_common(20)` of `main` lists distinct
terms with their corpus counts, ordered by strictly descending count with
ties broken by the term's first position of occurrence in the concatenated
keyword stream (earlier-seen first), truncated to the top 20. -/
theorem top_keywords_ranked (col : List Cell) :
    (top_keywords col).length ≤ 20 ∧
    (top_keywords col).Pairwise
      (fun a b => b.2 < a.2 ∨
        (a.2 = b.2 ∧
          firstIdx (corpusKeywords col) a.1 < firstIdx (corpusKeywords col) b.1)) ∧
    ∀ p ∈ top_keywords col, p.2 = (corpusKeywords col).count p.1 :=
  most_common_ranked (corpusKeywords col) 20

/-- Single-record corpus used to witness the ranking theorem. -/
def rankExampleCol : List Cell :=
  [Cell.str ('a' :: 'b' :: ' ' :: 'a' :: 'b' :: [])]

/-- C3 witness: on the record `"ab ab"` the ranked entry `("ab", 2)` carries
the exact corpus count of its term. -/
theorem top_keywords_ranked_witness :
    (((('a' :: 'b' :: []) : PyStr), 2) : PyStr × Nat).2 =
      (corpusKeywords rankExampleCol).count ('a' :: 'b' :: []) := by
  have h1 : counterItems (corpusKeywords rankExampleCol) =
      [((('a' :: 'b' :: []) : PyStr), 2)] := by decide
  have hmem : ((('a' :: 'b' :: []) : PyStr), 2) ∈ top_keywords rankExampleCol := by
    show _ ∈ ((counterItems (corpusKeywords rankExampleCol)).mergeSort countGE).take 20
    rw [h1, List.mergeSort_singleton]
    decide
  exact (top_keywords_ranked rankExampleCol).2.2 _ hmem
